import Mathlib

/-!
Verification of the log-tail server (`log_server.py`, config in `config.py`).

The development shallowly embeds the core of the server:

* files are byte lists (`List Nat`, each element a byte value);
* `read_from_end` (the backward chunked scanner) is embedded as
  `readFromEnd` / `scanLoop`, with the wall-clock read budget modelled by a
  fuel counter `tmo`: the iteration at which `read_time` first exceeds
  `DEFAULT_READ_TIMEOUT` (the timeout branch fires when the fuel is spent);
* `get_next_request` is embedded as `getNextRequest`;
* the `/logs` handler body (`get_log_file`) is embedded as `getLogFile`,
  restricted to the post-path-resolution part that the claims are about
  (path resolution, HTTP codes and gzip are transport plumbing).

Python primitives used by the source are modelled byte-faithfully:
`bytes.splitlines(keepends=True)` as `pySplitLines`,
`bytes.decode('utf-8', errors='ignore')` as `pyDecodeIgnore` (codepoint
list output), `str.strip()` as `pyStrip`, and the slice `l[-n:]` as
`pyTailSlice` (including Python's `l[-0:] = l` behaviour).

The scanner additionally records the byte position at which every loop
iteration starts (the third component of its result) so that statements
about the evolution of `position` can be made.
-/

/-- Whitespace test matching Python `str.isspace` / `str.strip` on the
codepoints that can occur here (ASCII whitespace plus the Unicode
whitespace codepoints Python strips). -/
def isPySpace (c : Nat) : Bool :=
  c = 32 || (9 ≤ c && c ≤ 13) || (28 ≤ c && c ≤ 31) || c = 133 || c = 160 ||
  c = 5760 || (8192 ≤ c && c ≤ 8202) || c = 8232 || c = 8233 || c = 8239 ||
  c = 8287 || c = 12288

/-- Python `str.strip()`: remove leading and trailing whitespace. -/
def pyStrip (l : List Nat) : List Nat :=
  ((l.dropWhile isPySpace).reverse.dropWhile isPySpace).reverse

/-- One step of a UTF-8 decoder over a byte list: returns the decoded
codepoint (or `none` when the leading bytes are an invalid sequence that the
error handler must deal with) and the remaining bytes.  Invalid sequences
consume their maximal valid subpart (at least one byte), following CPython's
UTF-8 error handling. -/
def utf8Step : List Nat → Option Nat × List Nat
  | [] => (none, [])
  | b :: rest =>
    if b < 128 then (some b, rest)
    else if 194 ≤ b && b ≤ 223 then
      match rest with
      | [] => (none, [])
      | c :: rest2 =>
        if 128 ≤ c && c ≤ 191 then (some ((b - 192) * 64 + (c - 128)), rest2)
        else (none, c :: rest2)
    else if 224 ≤ b && b ≤ 239 then
      match rest with
      | [] => (none, [])
      | c :: rest2 =>
        if (if b = 224 then 160 ≤ c && c ≤ 191
            else if b = 237 then 128 ≤ c && c ≤ 159
            else 128 ≤ c && c ≤ 191) then
          match rest2 with
          | [] => (none, [])
          | d :: rest3 =>
            if 128 ≤ d && d ≤ 191 then
              (some ((b - 224) * 4096 + (c - 128) * 64 + (d - 128)), rest3)
            else (none, d :: rest3)
        else (none, c :: rest2)
    else if 240 ≤ b && b ≤ 244 then
      match rest with
      | [] => (none, [])
      | c :: rest2 =>
        if (if b = 240 then 144 ≤ c && c ≤ 191
            else if b = 244 then 128 ≤ c && c ≤ 143
            else 128 ≤ c && c ≤ 191) then
          match rest2 with
          | [] => (none, [])
          | d :: rest3 =>
            if 128 ≤ d && d ≤ 191 then
              match rest3 with
              | [] => (none, [])
              | e :: rest4 =>
                if 128 ≤ e && e ≤ 191 then
                  (some ((b - 240) * 262144 + (c - 128) * 4096 +
                         (d - 128) * 64 + (e - 128)), rest4)
                else (none, e :: rest4)
            else (none, d :: rest3)
        else (none, c :: rest2)
    else (none, rest)

theorem utf8Step_snd_length_lt : ∀ l : List Nat, l ≠ [] →
    (utf8Step l).2.length < l.length := by
  intro l hl
  match l with
  | [] => exact absurd rfl hl
  | b :: rest =>
    simp only [utf8Step]
    repeat' split
    all_goals simp_all [List.length]
    all_goals omega

/-- The decoding loop shared by the two lossy UTF-8 decoders: `repl` is
what an invalid sequence contributes to the output (`[]` for
`errors='ignore'`, `[65533]` for `errors='replace'`).  The fuel is only a
structural-recursion device: every step consumes at least one byte, so
any fuel of at least `l.length` gives the same result. -/
def utf8DecodeLoop (repl : List Nat) : Nat → List Nat → List Nat
  | 0, _ => []
  | fuel + 1, l =>
    match l with
    | [] => []
    | _ :: _ =>
      match (utf8Step l).1 with
      | none => repl ++ utf8DecodeLoop repl fuel (utf8Step l).2
      | some c => c :: utf8DecodeLoop repl fuel (utf8Step l).2

theorem utf8DecodeLoop_fuel (repl : List Nat) : ∀ (f1 : Nat) (f2 : Nat)
    (l : List Nat), l.length ≤ f1 → l.length ≤ f2 →
    utf8DecodeLoop repl f1 l = utf8DecodeLoop repl f2 l := by
  intro f1
  induction f1 with
  | zero =>
    intro f2 l h1 _
    have : l = [] := List.length_eq_zero.mp (Nat.le_zero.mp h1)
    subst this
    cases f2 <;> rfl
  | succ f1 ih =>
    intro f2 l h1 h2
    match l with
    | [] => cases f2 <;> rfl
    | b :: rest =>
      match f2 with
      | 0 => exact absurd h2 (by simp)
      | f2 + 1 =>
        have hlt := utf8Step_snd_length_lt (b :: rest) (by simp)
        have hr1 : (utf8Step (b :: rest)).2.length ≤ f1 := by
          simp only [List.length_cons] at h1 hlt; omega
        have hr2 : (utf8Step (b :: rest)).2.length ≤ f2 := by
          simp only [List.length_cons] at h2 hlt; omega
        show (match (utf8Step (b :: rest)).1 with
          | none => repl ++ utf8DecodeLoop repl f1 (utf8Step (b :: rest)).2
          | some c => c :: utf8DecodeLoop repl f1 (utf8Step (b :: rest)).2) =
          (match (utf8Step (b :: rest)).1 with
          | none => repl ++ utf8DecodeLoop repl f2 (utf8Step (b :: rest)).2
          | some c => c :: utf8DecodeLoop repl f2 (utf8Step (b :: rest)).2)
        rw [ih f2 (utf8Step (b :: rest)).2 hr1 hr2]

/-- Python `bytes.decode('utf-8', errors='ignore')`, producing the list of
decoded codepoints; invalid byte sequences are dropped. -/
def pyDecodeIgnore (l : List Nat) : List Nat :=
  utf8DecodeLoop [] l.length l

/-- The spec's lossy decoding (`errors='replace'`): like `pyDecodeIgnore`
but each skipped invalid sequence is replaced by U+FFFD (65533). -/
def specDecodeReplace (l : List Nat) : List Nat :=
  utf8DecodeLoop [65533] l.length l

/-- Split off the first line of a byte string, Python
`bytes.splitlines(keepends=True)` style: a line ends at `\n`, `\r\n` or a
lone `\r` (terminator kept with the line); the remainder is returned. -/
def splitFirstLine : List Nat → List Nat × List Nat
  | [] => ([], [])
  | b :: rest =>
    if b = 13 then
      match rest with
      | 10 :: rest2 => ([13, 10], rest2)
      | _ => ([13], rest)
    else if b = 10 then ([10], rest)
    else
      let p := splitFirstLine rest
      (b :: p.1, p.2)

theorem splitFirstLine_cons (b : Nat) (rest : List Nat) :
    splitFirstLine (b :: rest) =
      if b = 13 then
        match rest with
        | 10 :: rest2 => ([13, 10], rest2)
        | _ => ([13], rest)
      else if b = 10 then ([10], rest)
      else (b :: (splitFirstLine rest).1, (splitFirstLine rest).2) := by
  simp only [splitFirstLine]

theorem splitFirstLine_snd_length_lt : ∀ l : List Nat, l ≠ [] →
    (splitFirstLine l).2.length < l.length := by
  intro l
  induction l with
  | nil => intro h; exact absurd rfl h
  | cons b rest ih =>
    intro _
    rw [splitFirstLine_cons]
    by_cases hb : b = 13
    · rw [if_pos hb]
      split
      · simp; omega
      · simp
    · rw [if_neg hb]
      by_cases h10 : b = 10
      · rw [if_pos h10]; simp
      · rw [if_neg h10]
        by_cases hr : rest = []
        · subst hr; simp [splitFirstLine]
        · have h := ih hr
          simp only [List.length_cons]
          omega

/-- The splitting loop of `pySplitLines`; the fuel is only a
structural-recursion device, any fuel of at least `l.length` gives the
same result (each step consumes at least one byte). -/
def pySplitLinesLoop : Nat → List Nat → List (List Nat)
  | 0, _ => []
  | fuel + 1, l =>
    match l with
    | [] => []
    | _ :: _ => (splitFirstLine l).1 :: pySplitLinesLoop fuel (splitFirstLine l).2

theorem pySplitLinesLoop_fuel : ∀ (f1 : Nat) (f2 : Nat) (l : List Nat),
    l.length ≤ f1 → l.length ≤ f2 →
    pySplitLinesLoop f1 l = pySplitLinesLoop f2 l := by
  intro f1
  induction f1 with
  | zero =>
    intro f2 l h1 _
    have : l = [] := List.length_eq_zero.mp (Nat.le_zero.mp h1)
    subst this
    cases f2 <;> rfl
  | succ f1 ih =>
    intro f2 l h1 h2
    match l with
    | [] => cases f2 <;> rfl
    | b :: rest =>
      match f2 with
      | 0 => exact absurd h2 (by simp)
      | f2 + 1 =>
        have hlt := splitFirstLine_snd_length_lt (b :: rest) (by simp)
        have hr1 : (splitFirstLine (b :: rest)).2.length ≤ f1 := by
          simp only [List.length_cons] at h1 hlt; omega
        have hr2 : (splitFirstLine (b :: rest)).2.length ≤ f2 := by
          simp only [List.length_cons] at h2 hlt; omega
        show (splitFirstLine (b :: rest)).1 ::
            pySplitLinesLoop f1 (splitFirstLine (b :: rest)).2 =
          (splitFirstLine (b :: rest)).1 ::
            pySplitLinesLoop f2 (splitFirstLine (b :: rest)).2
        rw [ih f2 (splitFirstLine (b :: rest)).2 hr1 hr2]

/-- Python `bytes.splitlines(keepends=True)`. -/
def pySplitLines (l : List Nat) : List (List Nat) :=
  pySplitLinesLoop l.length l

/-- Index (in a codepoint/byte list) of the last occurrence of the newline
character 10, Python `rfind('\n')` (`none` standing for Python's `-1`). -/
def lastNlIdx : List Nat → Option Nat
  | [] => none
  | b :: rest =>
    match lastNlIdx rest with
    | some k => some (k + 1)
    | none => if b = 10 then some 0 else none

/-- Python list slice `l[-n:]` for an arbitrary integer `n`, including the
`l[-0:] = l` and negative-`n` (`l[-(-k):] = l[k:]`) behaviours. -/
def pyTailSlice (n : Int) (xs : List (List Nat)) : List (List Nat) :=
  if 0 < n then xs.drop (xs.length - n.toNat) else xs.drop (-n).toNat

/-- Embedding of `read_chunk` in `log_server.py` (lines 64-76): read
`file[position : position+size]`, then look for the last newline of the
chunk *decoded with lossy UTF-8* (`rfind` on the decoded string); if found
at decoded index `k`, keep the first `k+1` **bytes** of the chunk and
report `position + k + 1` as the adjusted position; otherwise return the
whole chunk with the unadjusted position. -/
def readChunk (file : List Nat) (position size : Nat) : List Nat × Nat :=
  let chunk := (file.drop position).take size
  match lastNlIdx (pyDecodeIgnore chunk) with
  | none => (chunk, position)
  | some k => (chunk.take (k + 1), position + k + 1)

/-- One iteration body of the `while` loop of `read_from_end` (lines
92-101): read a chunk, prepend it to the carried buffer, split the whole
buffer into lines, optionally filter them by the regex predicate (applied
to the lossily decoded line), and prepend the batch to the accumulated
lines.  Returns `(lines', buffer', nextPosition)`. -/
def scanStep (file : List Nat) (chunkSize : Nat)
    (pred : Option (List Nat → Bool)) (position : Nat) (buffer : List Nat)
    (lines : List (List Nat)) : List (List Nat) × List Nat × Nat :=
  let c := readChunk file position chunkSize
  let buffer2 := c.1 ++ buffer
  let bufferLines :=
    match pred with
    | none => pySplitLines buffer2
    | some p => (pySplitLines buffer2).filter fun l => p (pyDecodeIgnore l)
  (bufferLines ++ lines, buffer2, c.2)

/-- The early-return value of `read_from_end` (lines 108-111): the last
`numLines` accumulated lines, newest first, and
`offset + totalBytesOfReturnedLines`. -/
def stopResult (numLines : Int) (offset : Int) (lines : List (List Nat)) :
    List (List Nat) × Int :=
  let resp := (pyTailSlice numLines lines).reverse
  (resp, offset + ((resp.map List.length).sum : Nat))

/-- The `while position >= 0` loop of `read_from_end` (lines 91-119).
`tmo` is the fuel modelling the wall-clock budget: the timeout condition
`read_time > DEFAULT_READ_TIMEOUT` first holds at the iteration where the
fuel is spent, and at that point the partial-result branch is taken, as in
the source.  The third result component records the `position` at which
each executed iteration started. -/
def scanLoop (file : List Nat) (maxChunk : Nat) (numLines : Int)
    (offset : Int) (pred : Option (List Nat → Bool)) (chunkSize eff : Nat) :
    Nat → Nat → List Nat → List (List Nat) →
    List (List Nat) × Int × List Nat
  | 0, position, buffer, lines =>
    let s := scanStep file chunkSize pred position buffer lines
    let r := stopResult numLines offset s.1
    (r.1, r.2, [position])
  | t + 1, position, buffer, lines =>
    let s := scanStep file chunkSize pred position buffer lines
    if (s.1.length : Int) > numLines then
      let r := stopResult numLines offset s.1
      (r.1, r.2, [position])
    else if position = 0 then (s.1, (eff : Int), [position])
    else
      let r := scanLoop file maxChunk numLines offset pred chunkSize eff t
        (s.2.2 - maxChunk) s.2.1 s.1
      (r.1, r.2.1, position :: r.2.2)

/-- Error values raised by the embedded Python code. -/
inductive PyErr where
  | osError : PyErr
  | typeError : PyErr
deriving DecidableEq, Repr

instance {e a : Type} [DecidableEq e] [DecidableEq a] :
    DecidableEq (Except e a) := fun x y =>
  match x, y with
  | .ok u, .ok v =>
    if h : u = v then .isTrue (by rw [h])
    else .isFalse fun hh => h (Except.ok.inj hh)
  | .error u, .error v =>
    if h : u = v then .isTrue (by rw [h])
    else .isFalse fun hh => h (Except.error.inj hh)
  | .ok _, .error _ => .isFalse fun hh => Except.noConfusion hh
  | .error _, .ok _ => .isFalse fun hh => Except.noConfusion hh

/-- Embedding of `read_from_end` (lines 58-119).  `f.seek(-offset, SEEK_END)` raises
`OSError` when it computes a negative position, i.e. when
`offset > len(file)`; otherwise `file_size = len(file) - offset` is the
effective size, the start position is `max(file_size - max_chunk_size, 0)`,
the first chunk size shrinks to `file_size` when the whole (effective) file
fits in one chunk, and the loop runs.  Result: lines, next offset from the
end, and the trace of loop-iteration start positions. -/
def readFromEnd (file : List Nat) (maxChunk : Nat) (numLines : Int)
    (offset : Int) (pred : Option (List Nat → Bool)) (tmo : Nat) :
    Except PyErr (List (List Nat) × Int × List Nat) :=
  if (file.length : Int) - offset < 0 then .error .osError
  else
    let eff := ((file.length : Int) - offset).toNat
    let position := eff - maxChunk
    let chunkSize := if 0 < position then maxChunk else eff
    .ok (scanLoop file maxChunk numLines offset pred chunkSize eff tmo
      position [] [])

/-- The request model (`LogRequest` of `log_server.py`), restricted to the
numeric fields; `logpath` and `regex` are carried unchanged by
`model_copy` and play no role in the claims below. -/
structure LogRequest where
  num_lines : Int
  offset : Int
  page_size : Int
deriving DecidableEq, Repr

/-- Embedding of `get_next_request` (lines 122-132): no next request when the original
ask is satisfied, otherwise a copy with the line budget reduced and the
offset advanced. -/
def getNextRequest (original : LogRequest) (linesRetrieved : Int)
    (offset : Int) : Option LogRequest :=
  if original.num_lines ≤ linesRetrieved then none
  else some { original with
              num_lines := original.num_lines - linesRetrieved,
              offset := offset }

/-- From `config.py`: `DEFAULT_CHUNK_SIZE = 1024 * 1024`. -/
def DEFAULT_CHUNK_SIZE : Nat := 1024 * 1024

/-- From `config.py`: `MAX_LINE_SIZE = 200000`. -/
def MAX_LINE_SIZE : Int := 200000

/-- The body of `get_log_file` (lines 152-161) normalising `num_lines`:
`int(num_lines) if num_lines else None` (with the dead `ValueError`
catch).  `None` and `0` are falsy, so both become `None`. -/
def normalizeNumLines : Option Int → Option Int
  | none => none
  | some v => if v = 0 then none else some v

/-- The raw request body reaching `get_log_file` after pydantic
validation: `num_lines` may be `None` (JSON null); other claim-relevant
fields are plain integers. -/
structure PyLogRequest where
  num_lines : Option Int
  offset : Int
  page_size : Int
deriving DecidableEq, Repr

/-- The core of the `/logs` handler `get_log_file` (lines 138-176), after
path resolution: normalise `num_lines`; compute
`min(num_lines, MAX_LINE_SIZE, page_size)` — a `TypeError` when the
normalised count is `None`; run `read_from_end`; decode and `strip()` each
returned raw line; build the next request from the *original* request and
the number of decoded lines. -/
def getLogFile (file : List Nat) (req : PyLogRequest)
    (pred : Option (List Nat → Bool)) (tmo : Nat) :
    Except PyErr (List (List Nat) × Int × Option LogRequest) :=
  match normalizeNumLines req.num_lines with
  | none => .error .typeError
  | some nl =>
    let cap := min nl (min MAX_LINE_SIZE req.page_size)
    match readFromEnd file DEFAULT_CHUNK_SIZE cap req.offset pred tmo with
    | .error e => .error e
    | .ok r =>
      let responseLines := r.1.map fun l => pyStrip (pyDecodeIgnore l)
      .ok (responseLines, r.2.1,
        getNextRequest ⟨nl, req.offset, req.page_size⟩
          (responseLines.length : Int) r.2.1)

/-- Modelled from the spec: the "straightforward reverse reading" of a
file — its lines, newest first; the first `n` of them are the reference
result of a tail scan for `n` lines. -/
def specNewestFirst (n : Nat) (file : List Nat) : List (List Nat) :=
  (pySplitLines file).reverse.take n

/-- Modelled from the spec: trailing-whitespace-only trimming
("trailing whitespace trimmed"). -/
def pyRStrip (l : List Nat) : List Nat :=
  (l.reverse.dropWhile isPySpace).reverse

/-- Modelled from the spec (§3 LogLine, §7 DecodeLoss): a returned line is
the raw bytes decoded with invalid sequences *replaced*, then trimmed of
*trailing* whitespace. -/
def specLineTransform (raw : List Nat) : List Nat :=
  pyRStrip (specDecodeReplace raw)

theorem pyDecodeIgnore_nil : pyDecodeIgnore [] = [] := rfl

theorem pyDecodeIgnore_cons (b : Nat) (rest : List Nat) :
    pyDecodeIgnore (b :: rest) =
      match (utf8Step (b :: rest)).1 with
      | none => pyDecodeIgnore (utf8Step (b :: rest)).2
      | some c => c :: pyDecodeIgnore (utf8Step (b :: rest)).2 := by
  have hlt := utf8Step_snd_length_lt (b :: rest) (by simp)
  have hf : utf8DecodeLoop [] rest.length (utf8Step (b :: rest)).2 =
      utf8DecodeLoop [] (utf8Step (b :: rest)).2.length
        (utf8Step (b :: rest)).2 := by
    apply utf8DecodeLoop_fuel
    · simp only [List.length_cons] at hlt; omega
    · exact le_rfl
  show (match (utf8Step (b :: rest)).1 with
    | none => [] ++ utf8DecodeLoop [] rest.length (utf8Step (b :: rest)).2
    | some c => c :: utf8DecodeLoop [] rest.length (utf8Step (b :: rest)).2) = _
  rw [hf]
  rfl

theorem utf8Step_ascii (b : Nat) (rest : List Nat) (hb : b < 128) :
    utf8Step (b :: rest) = (some b, rest) := by
  simp [utf8Step, hb]

theorem pyDecodeIgnore_ascii : ∀ l : List Nat, (∀ b ∈ l, b < 128) →
    pyDecodeIgnore l = l := by
  intro l
  induction l with
  | nil => intro _; exact pyDecodeIgnore_nil
  | cons b rest ih =>
    intro h
    have hb : b < 128 := h b (by simp)
    rw [pyDecodeIgnore_cons, utf8Step_ascii b rest hb]
    exact congrArg (b :: ·) (ih fun x hx => h x (by simp [hx]))

theorem pyDecodeIgnore_length_le_aux : ∀ (n : Nat) (l : List Nat),
    l.length ≤ n → (pyDecodeIgnore l).length ≤ l.length := by
  intro n
  induction n with
  | zero =>
    intro l h
    have : l = [] := List.length_eq_zero.mp (Nat.le_zero.mp h)
    simp [this, pyDecodeIgnore_nil]
  | succ n ih =>
    intro l h
    match l with
    | [] => simp [pyDecodeIgnore_nil]
    | b :: rest =>
      rw [pyDecodeIgnore_cons]
      have hlt := utf8Step_snd_length_lt (b :: rest) (by simp)
      have hrec := ih (utf8Step (b :: rest)).2
        (by simp only [List.length_cons] at h hlt ⊢; omega)
      cases hcase : (utf8Step (b :: rest)).1 with
      | none =>
        simp only [List.length_cons] at hlt ⊢
        omega
      | some c =>
        simp only [List.length_cons] at hlt ⊢
        omega

theorem pyDecodeIgnore_length_le (l : List Nat) :
    (pyDecodeIgnore l).length ≤ l.length :=
  pyDecodeIgnore_length_le_aux l.length l le_rfl

theorem lastNlIdx_of_getLast (l : List Nat) (h : l.getLast? = some 10) :
    lastNlIdx l = some (l.length - 1) := by
  induction l with
  | nil => simp at h
  | cons b rest ih =>
    by_cases hr : rest = []
    · subst hr
      simp only [List.getLast?_singleton, Option.some.injEq] at h
      simp [lastNlIdx, h]
    · have h2 : rest.getLast? = some 10 := by
        obtain ⟨c, cs, rfl⟩ := List.exists_cons_of_ne_nil hr
        rwa [List.getLast?_cons_cons] at h
      have := ih h2
      have hlen : 1 ≤ rest.length := by
        cases rest with
        | nil => exact absurd rfl hr
        | cons c cs => simp
      simp only [lastNlIdx, this, List.length_cons]
      congr 1
      omega

theorem lastNlIdx_lt_length (l : List Nat) (k : Nat)
    (h : lastNlIdx l = some k) : k < l.length := by
  induction l generalizing k with
  | nil => simp [lastNlIdx] at h
  | cons b rest ih =>
    simp only [lastNlIdx] at h
    cases hr : lastNlIdx rest with
    | some j =>
      rw [hr] at h
      have := ih j hr
      simp only [Option.some.injEq] at h
      subst h
      simp only [List.length_cons]
      omega
    | none =>
      rw [hr] at h
      by_cases hb : b = 10
      · simp [hb] at h
        subst h
        simp
      · simp [hb] at h

theorem splitFirstLine_append_eq : ∀ l : List Nat,
    (splitFirstLine l).1 ++ (splitFirstLine l).2 = l := by
  intro l
  induction l with
  | nil => simp [splitFirstLine]
  | cons b rest ih =>
    rw [splitFirstLine_cons]
    by_cases hb : b = 13
    · rw [if_pos hb]
      subst hb
      split
      · simp_all
      · simp
    · rw [if_neg hb]
      by_cases h10 : b = 10
      · rw [if_pos h10]; subst h10; simp
      · rw [if_neg h10]
        simpa using ih

/-- A complete newline-terminated line as produced by `pySplitLines` on a
carriage-return-free input: it ends with `\n` and has no other line
terminator inside. -/
def IsNlLine (m : List Nat) : Prop :=
  m.getLast? = some 10 ∧ ∀ b ∈ m.dropLast, b ≠ 10 ∧ b ≠ 13

instance (m : List Nat) : Decidable (IsNlLine m) := by
  unfold IsNlLine; infer_instance

theorem splitFirstLine_body : ∀ (body rest : List Nat),
    (∀ b ∈ body, b ≠ 10 ∧ b ≠ 13) →
    splitFirstLine (body ++ 10 :: rest) = (body ++ [10], rest) := by
  intro body
  induction body with
  | nil =>
    intro rest _
    simp [splitFirstLine_cons]
  | cons b body2 ih =>
    intro rest h
    have hb := h b (by simp)
    rw [List.cons_append, splitFirstLine_cons, if_neg hb.2, if_neg hb.1,
      ih rest fun x hx => h x (by simp [hx])]
    simp

theorem pySplitLines_nil : pySplitLines [] = [] := rfl

theorem pySplitLines_ne_nil (l : List Nat) (hl : l ≠ []) :
    pySplitLines l =
      (splitFirstLine l).1 :: pySplitLines (splitFirstLine l).2 := by
  obtain ⟨b, rest, rfl⟩ := List.exists_cons_of_ne_nil hl
  have hlt := splitFirstLine_snd_length_lt (b :: rest) (by simp)
  have hf : pySplitLinesLoop rest.length (splitFirstLine (b :: rest)).2 =
      pySplitLinesLoop (splitFirstLine (b :: rest)).2.length
        (splitFirstLine (b :: rest)).2 := by
    apply pySplitLinesLoop_fuel
    · simp only [List.length_cons] at hlt; omega
    · exact le_rfl
  show (splitFirstLine (b :: rest)).1 ::
      pySplitLinesLoop rest.length (splitFirstLine (b :: rest)).2 = _
  rw [hf]
  rfl

theorem pySplitLines_flatten_aux : ∀ (n : Nat) (l : List Nat),
    l.length ≤ n → (pySplitLines l).flatten = l := by
  intro n
  induction n with
  | zero =>
    intro l h
    have : l = [] := List.length_eq_zero.mp (Nat.le_zero.mp h)
    simp [this, pySplitLines_nil]
  | succ n ih =>
    intro l h
    by_cases hl : l = []
    · simp [hl, pySplitLines_nil]
    · rw [pySplitLines_ne_nil l hl]
      have hlt := splitFirstLine_snd_length_lt l hl
      have := ih (splitFirstLine l).2 (by omega)
      simp only [List.flatten_cons, this]
      exact splitFirstLine_append_eq l

theorem pySplitLines_flatten (l : List Nat) :
    (pySplitLines l).flatten = l :=
  pySplitLines_flatten_aux l.length l le_rfl

theorem splitFirstLine_fst_isNlLine : ∀ l : List Nat, 13 ∉ l →
    l.getLast? = some 10 → IsNlLine (splitFirstLine l).1 := by
  intro l
  induction l with
  | nil => intro _ h; simp at h
  | cons b rest ih =>
    intro h13 h10
    have hb13 : b ≠ 13 := fun h => h13 (by simp [h])
    rw [splitFirstLine_cons, if_neg hb13]
    by_cases hb10 : b = 10
    · rw [if_pos hb10]
      subst hb10
      exact ⟨rfl, by simp⟩
    · rw [if_neg hb10]
      have hrne : rest ≠ [] := by
        intro hr
        subst hr
        simp only [List.getLast?_singleton, Option.some.injEq] at h10
        exact hb10 h10
      have h10r : rest.getLast? = some 10 := by
        obtain ⟨c, cs, rfl⟩ := List.exists_cons_of_ne_nil hrne
        rwa [List.getLast?_cons_cons] at h10
      have hih := ih (fun hx => h13 (by simp [hx])) h10r
      obtain ⟨hend, hbody⟩ := hih
      have hfne : (splitFirstLine rest).1 ≠ [] := by
        intro hx
        rw [hx] at hend
        simp at hend
      constructor
      · obtain ⟨c, cs, hq⟩ := List.exists_cons_of_ne_nil hfne
        rw [hq, List.getLast?_cons_cons, ← hq]
        exact hend
      · rw [List.dropLast_cons_of_ne_nil hfne]
        intro x hx
        rcases List.mem_cons.mp hx with hxb | hxq
        · exact hxb ▸ ⟨hb10, hb13⟩
        · exact hbody x hxq

theorem pySplitLines_isNlLine_aux : ∀ (n : Nat) (l : List Nat),
    l.length ≤ n → 13 ∉ l → l.getLast? = some 10 →
    ∀ m ∈ pySplitLines l, IsNlLine m := by
  intro n
  induction n with
  | zero =>
    intro l h _ h10
    have : l = [] := List.length_eq_zero.mp (Nat.le_zero.mp h)
    subst this
    simp at h10
  | succ n ih =>
    intro l h h13 h10 m hm
    have hl : l ≠ [] := by
      intro hx
      subst hx
      simp at h10
    rw [pySplitLines_ne_nil l hl] at hm
    rcases List.mem_cons.mp hm with hfst | hrest
    · exact hfst ▸ splitFirstLine_fst_isNlLine l h13 h10
    · have heq := splitFirstLine_append_eq l
      have hlt := splitFirstLine_snd_length_lt l hl
      have h13r : 13 ∉ (splitFirstLine l).2 := by
        intro hx
        exact h13 (heq ▸ List.mem_append_right _ hx)
      by_cases hr : (splitFirstLine l).2 = []
      · rw [hr, pySplitLines_nil] at hrest
        simp at hrest
      · have h10r : (splitFirstLine l).2.getLast? = some 10 := by
          rw [← heq, List.getLast?_append] at h10
          obtain ⟨c, cs, hq⟩ := List.exists_cons_of_ne_nil hr
          rw [hq] at h10 ⊢
          simpa using h10
        exact ih (splitFirstLine l).2 (by omega) h13r h10r m hrest

theorem pySplitLines_isNlLine (l : List Nat) (h13 : 13 ∉ l)
    (h10 : l.getLast? = some 10) : ∀ m ∈ pySplitLines l, IsNlLine m :=
  pySplitLines_isNlLine_aux l.length l le_rfl h13 h10

theorem pySplitLines_flatten_append : ∀ (M : List (List Nat))
    (rest : List Nat), (∀ m ∈ M, IsNlLine m) →
    pySplitLines (M.flatten ++ rest) = M ++ pySplitLines rest := by
  intro M
  induction M with
  | nil => intro rest _; simp
  | cons m M2 ih =>
    intro rest hM
    obtain ⟨h10, hbody⟩ := hM m (by simp)
    have hmne : m ≠ [] := by
      intro hx
      rw [hx] at h10
      simp at h10
    have hm : m = m.dropLast ++ [10] := by
      conv_lhs => rw [← List.dropLast_concat_getLast hmne]
      rw [List.getLast?_eq_getLast m hmne] at h10
      simp only [Option.some.injEq] at h10
      rw [h10]
    have hsplit : splitFirstLine (m ++ (M2.flatten ++ rest)) =
        (m, M2.flatten ++ rest) := by
      conv_lhs => rw [hm]
      rw [List.append_assoc, List.singleton_append,
        splitFirstLine_body m.dropLast _ hbody, ← hm]
    rw [List.flatten_cons, List.append_assoc,
      pySplitLines_ne_nil _ (by simp [hmne]), hsplit]
    simp only [List.cons_append, List.cons.injEq, true_and]
    exact ih rest fun x hx => hM x (by simp [hx])

theorem pySplitLines_flatten_of_lines (M : List (List Nat))
    (hM : ∀ m ∈ M, IsNlLine m) : pySplitLines M.flatten = M := by
  have := pySplitLines_flatten_append M [] hM
  simpa [pySplitLines_nil] using this

theorem singleChunk_step (f g : List Nat) (off : Int)
    (hg : g = f.take ((f.length : Int) - off).toNat)
    (hga : ∀ b ∈ g, b < 128) (hg10 : g.getLast? = some 10) :
    scanStep f (((f.length : Int) - off).toNat) none 0 [] [] =
      (pySplitLines g, g, g.length) := by
  have hgne : g ≠ [] := by
    intro hx
    rw [hx] at hg10
    simp at hg10
  have hlenpos : 0 < g.length := List.length_pos.mpr hgne
  have hdec : pyDecodeIgnore g = g := pyDecodeIgnore_ascii g hga
  have hidx : lastNlIdx g = some (g.length - 1) := lastNlIdx_of_getLast g hg10
  have hsucc : g.length - 1 + 1 = g.length := by omega
  simp only [scanStep, readChunk, List.drop_zero, ← hg, hdec, hidx, hsucc,
    List.take_length, List.append_nil, Nat.zero_add]

theorem singleChunk_stop (f g : List Nat) (mcs : Nat) (n off : Int) (t : Nat)
    (hoffle : off ≤ (f.length : Int))
    (hg : g = f.take ((f.length : Int) - off).toNat)
    (heff : ((f.length : Int) - off).toNat ≤ mcs)
    (hga : ∀ b ∈ g, b < 128) (hg10 : g.getLast? = some 10)
    (hcond : ((pySplitLines g).length : Int) > n) :
    readFromEnd f mcs n off none (t + 1) =
      .ok ((pyTailSlice n (pySplitLines g)).reverse,
        off + (((pyTailSlice n (pySplitLines g)).reverse.map List.length).sum : Nat),
        [0]) := by
  have hno : ¬((f.length : Int) - off < 0) := by omega
  have hpos : ((f.length : Int) - off).toNat - mcs = 0 :=
    Nat.sub_eq_zero_of_le heff
  simp only [readFromEnd, if_neg hno, hpos, Nat.lt_irrefl, if_false,
    scanLoop, singleChunk_step f g off hg hga hg10, if_pos hcond, stopResult]

theorem singleChunk_exhaust (f g : List Nat) (mcs : Nat) (n off : Int)
    (t : Nat)
    (hoffle : off ≤ (f.length : Int))
    (hg : g = f.take ((f.length : Int) - off).toNat)
    (heff : ((f.length : Int) - off).toNat ≤ mcs)
    (hga : ∀ b ∈ g, b < 128) (hg10 : g.getLast? = some 10)
    (hcond : ¬(((pySplitLines g).length : Int) > n)) :
    readFromEnd f mcs n off none (t + 1) =
      .ok (pySplitLines g, (f.length : Int) - off, [0]) := by
  have hno : ¬((f.length : Int) - off < 0) := by omega
  have hpos : ((f.length : Int) - off).toNat - mcs = 0 :=
    Nat.sub_eq_zero_of_le heff
  have htn : ((((f.length : Int) - off).toNat : Nat) : Int) =
      (f.length : Int) - off := Int.toNat_of_nonneg (by omega)
  simp only [readFromEnd, if_neg hno, hpos, Nat.lt_irrefl, if_false,
    scanLoop, singleChunk_step f g off hg hga hg10, if_neg hcond, htn,
    if_pos rfl, if_true]

theorem pyTailSlice_natCast (n : Nat) (hn : 0 < n) (xs : List (List Nat)) :
    pyTailSlice (n : Int) xs = xs.drop (xs.length - n) := by
  have h : (0 : Int) < (n : Int) := by exact_mod_cast hn
  simp [pyTailSlice, h]

theorem tailSlice_reverse_eq (n : Nat) (hn : 0 < n) (xs : List (List Nat)) :
    (pyTailSlice (n : Int) xs).reverse = xs.reverse.take n := by
  rw [pyTailSlice_natCast n hn xs, List.take_reverse]

/-- C1: as stated, the claim fails: when `targetCount` equals the total
line count the scan ends on the file-exhausted path and returns the lines
oldest-first, not newest-first.  Concretely, for the two-line file
`"a\nb\n"` and `targetCount = 2` the scan returns `["a\n", "b\n"]`, not
the reverse reading `["b\n", "a\n"]`. -/
theorem c1_counterexample :
    readFromEnd [97, 10, 98, 10] DEFAULT_CHUNK_SIZE 2 0 none 9 =
      .ok ([[97, 10], [98, 10]], 4, [0]) ∧
    [[97, 10], [98, 10]] ≠ specNewestFirst 2 [97, 10, 98, 10] := by
  constructor
  · decide
  · decide

/-- C1 (amended): for an ASCII, newline-terminated file that fits in a
single chunk, a scan with no regex for `0 < targetCount <` total line
count returns exactly `targetCount` lines, newest first, equal to the
first `targetCount` lines of the straightforward reverse reading of the
file (the claim as stated fails when `targetCount` equals the line count,
and multi-chunk scans re-read overlapping regions). -/
theorem c1_scan_newest_first_single_chunk (f : List Nat) (mcs n t : Nat)
    (hga : ∀ b ∈ f, b < 128) (h10 : f.getLast? = some 10)
    (hlen : f.length ≤ mcs) (hn : 0 < n)
    (hcount : n < (pySplitLines f).length) :
    readFromEnd f mcs (n : Int) 0 none (t + 1) =
      .ok (specNewestFirst n f,
        ((((specNewestFirst n f).map List.length).sum : Nat) : Int), [0]) ∧
    (specNewestFirst n f).length = n := by
  have hg : f = f.take ((f.length : Int) - 0).toNat := by simp
  have heff : ((f.length : Int) - 0).toNat ≤ mcs := by simpa using hlen
  have hcond : ((pySplitLines f).length : Int) > (n : Int) := by
    exact_mod_cast hcount
  have h := singleChunk_stop f f mcs (n : Int) 0 t (by simp) hg heff hga
    h10 hcond
  have hrw : (pyTailSlice (n : Int) (pySplitLines f)).reverse =
      specNewestFirst n f := by
    rw [tailSlice_reverse_eq n hn]
    rfl
  rw [hrw] at h
  constructor
  · simpa using h
  · rw [specNewestFirst, List.length_take, List.length_reverse]
    omega
/-- C1 witness: the amended theorem applied to the three-line file
`"a\nb\nc\n"` with `targetCount = 2`. -/
theorem c1_scan_newest_first_single_chunk_witness :
    readFromEnd [97, 10, 98, 10, 99, 10] 16 (2 : Int) 0 none 4 =
      .ok (specNewestFirst 2 [97, 10, 98, 10, 99, 10], 4, [0]) ∧
    (specNewestFirst 2 [97, 10, 98, 10, 99, 10]).length = 2 := by
  have h := c1_scan_newest_first_single_chunk [97, 10, 98, 10, 99, 10]
    16 2 3 (by decide) (by decide) (by decide) (by decide) (by decide)
  simpa using h

theorem flatten_getLast_10 (T : List (List Nat))
    (hT : ∀ m ∈ T, IsNlLine m) (hne : T ≠ []) :
    T.flatten.getLast? = some 10 := by
  rcases List.eq_nil_or_concat T with h | ⟨L, m, hLm⟩
  · exact absurd h hne
  · subst hLm
    have hm : IsNlLine m := hT m (by simp [List.concat_eq_append])
    rw [List.concat_eq_append, List.flatten_append, List.getLast?_append]
    simp [hm.1]

/-- C2: as stated, the claim fails.  For the three-line file
`"a\nb\nc\n"` with `n1 = 2`, `n2 = 1`, page one returns
`["c\n", "b\n"]` with next offset `4`; the continuation scan returns
`["a\n"]`; but the n1+n2 = 3 direct scan ends on the file-exhausted path
and returns the lines oldest-first, so the concatenation
`["c\n", "b\n", "a\n"]` differs from the direct scan's first three
lines `["a\n", "b\n", "c\n"]`. -/
theorem c2_counterexample :
    readFromEnd [97, 10, 98, 10, 99, 10] DEFAULT_CHUNK_SIZE 2 0 none 9 =
      .ok ([[99, 10], [98, 10]], 4, [0]) ∧
    getNextRequest ⟨3, 0, 250⟩ 2 4 = some ⟨1, 4, 250⟩ ∧
    readFromEnd [97, 10, 98, 10, 99, 10] DEFAULT_CHUNK_SIZE 1 4 none 9 =
      .ok ([[97, 10]], 2, [0]) ∧
    readFromEnd [97, 10, 98, 10, 99, 10] DEFAULT_CHUNK_SIZE 3 0 none 9 =
      .ok ([[97, 10], [98, 10], [99, 10]], 6, [0]) ∧
    [[99, 10], [98, 10]] ++ [[97, 10]] ≠
      ([[97, 10], [98, 10], [99, 10]] : List (List Nat)).take 3 := by
  refine ⟨by decide, by decide, by decide, by decide, by decide⟩

/-- C2 (amended): pagination composition holds for an ASCII,
newline-terminated, carriage-return-free file that fits in a single chunk
when `n1 + n2` is strictly below the total line count (so that every scan
involved returns through the enough-lines path): page one's lines followed
by the lines of the scan described by page one's continuation request
equal the first `n1 + n2` lines of the direct scan, and the continuation
request is exactly the original with the line budget reduced by `n1` and
the offset advanced.  (As stated the claim fails: once the direct scan
exhausts the file it returns lines oldest-first, and multi-chunk scans can
duplicate or drop lines.) -/
theorem c2_pagination_composition_single_chunk
    (f : List Nat) (mcs n1 n2 ps t1 t2 t3 : Nat)
    (p1 p2 pd : List (List Nat)) (o1 o2 od : Int) (tr1 tr2 trd : List Nat)
    (hga : ∀ b ∈ f, b < 128) (h13 : 13 ∉ f) (h10 : f.getLast? = some 10)
    (hlen : f.length ≤ mcs) (hn1 : 0 < n1) (hn2 : 0 < n2)
    (hcount : n1 + n2 < (pySplitLines f).length)
    (h1 : readFromEnd f mcs (n1 : Int) 0 none (t1 + 1) = .ok (p1, o1, tr1))
    (h2 : readFromEnd f mcs (n2 : Int) o1 none (t2 + 1) = .ok (p2, o2, tr2))
    (hd : readFromEnd f mcs ((n1 : Int) + (n2 : Int)) 0 none (t3 + 1) =
      .ok (pd, od, trd)) :
    p1 ++ p2 = pd.take (n1 + n2) ∧
    getNextRequest ⟨(n1 : Int) + (n2 : Int), 0, (ps : Int)⟩
      (p1.length : Int) o1 = some ⟨(n2 : Int), o1, (ps : Int)⟩ := by
  have hM := pySplitLines_isNlLine f h13 h10
  have hMf := pySplitLines_flatten f
  set M := pySplitLines f with hMdef
  set k := M.length - n1 with hk
  have hn1M : n1 < M.length := by omega
  -- page one
  have hg0 : f = f.take ((f.length : Int) - 0).toNat := by simp
  have heff0 : ((f.length : Int) - 0).toNat ≤ mcs := by simpa using hlen
  have hc1 : ((M.length : Int)) > (n1 : Int) := by exact_mod_cast hn1M
  have e1 := singleChunk_stop f f mcs (n1 : Int) 0 t1 (by simp) hg0 heff0
    hga h10 hc1
  rw [h1] at e1
  have e1' := Except.ok.inj e1
  have hp1 : p1 = (M.drop k).reverse := by
    have := congrArg Prod.fst e1'
    simpa [pyTailSlice_natCast n1 hn1] using this
  have ho1 : o1 = ((M.drop k).flatten.length : Int) := by
    have := congrArg (Prod.fst ∘ Prod.snd) e1'
    simp only [Function.comp, pyTailSlice_natCast n1 hn1] at this
    rw [this]
    simp [List.length_flatten, List.sum_reverse]
  -- the effective file seen by page two
  have hTD : (M.take k).flatten ++ (M.drop k).flatten = f := by
    rw [← List.flatten_append, List.take_append_drop, hMf]
  have hflen : f.length = (M.take k).flatten.length +
      (M.drop k).flatten.length := by
    conv_lhs => rw [← hTD]
    simp
  have hsub : (f.length : Int) - o1 = ((M.take k).flatten.length : Int) := by
    rw [ho1, hflen]
    push_cast
    ring
  have hsubN : ((f.length : Int) - o1).toNat = (M.take k).flatten.length := by
    rw [hsub]
    exact Int.toNat_natCast _
  have hgtake : f.take ((M.take k).flatten.length) = (M.take k).flatten := by
    conv_lhs => rw [← hTD]
    exact List.take_left _ _
  have hTlines : ∀ m ∈ M.take k, IsNlLine m := fun m hm =>
    hM m (List.mem_of_mem_take hm)
  have hTlen : (M.take k).length = k := by
    rw [List.length_take]
    omega
  have hTne : M.take k ≠ [] := by
    intro hx
    rw [hx] at hTlen
    simp at hTlen
    omega
  have hT10 : (M.take k).flatten.getLast? = some 10 :=
    flatten_getLast_10 (M.take k) hTlines hTne
  have hL2 : pySplitLines ((M.take k).flatten) = M.take k :=
    pySplitLines_flatten_of_lines (M.take k) hTlines
  have hoffle2 : o1 ≤ (f.length : Int) := by
    rw [ho1]
    exact_mod_cast (by omega : (M.drop k).flatten.length ≤ f.length)
  have hg2 : (M.take k).flatten = f.take ((f.length : Int) - o1).toNat := by
    rw [hsubN, hgtake]
  have heff2 : ((f.length : Int) - o1).toNat ≤ mcs := by
    rw [hsubN]
    omega
  have hga2 : ∀ b ∈ (M.take k).flatten, b < 128 := by
    intro b hb
    apply hga
    rw [← hMf, ← List.take_append_drop k M, List.flatten_append]
    exact List.mem_append_left _ hb
  have hc2 : ((pySplitLines ((M.take k).flatten)).length : Int) >
      (n2 : Int) := by
    rw [hL2, hTlen]
    exact_mod_cast (by omega : n2 < k)
  have e2 := singleChunk_stop f ((M.take k).flatten) mcs (n2 : Int) o1 t2
    hoffle2 hg2 heff2 hga2 hT10 hc2
  rw [h2, hL2] at e2
  have e2' := Except.ok.inj e2
  have hp2 : p2 = ((M.take k).drop (k - n2)).reverse := by
    have := congrArg Prod.fst e2'
    simpa [pyTailSlice_natCast n2 hn2, hTlen] using this
  -- the direct scan
  have hcast : (n1 : Int) + (n2 : Int) = ((n1 + n2 : Nat) : Int) := by
    push_cast
    ring
  have hcd : ((M.length : Int)) > ((n1 + n2 : Nat) : Int) := by
    exact_mod_cast hcount
  have ed := singleChunk_stop f f mcs ((n1 + n2 : Nat) : Int) 0 t3 (by simp)
    hg0 heff0 hga h10 hcd
  rw [hcast, ed] at hd
  have ed' := Except.ok.inj hd.symm
  have hpd : pd = (M.drop (M.length - (n1 + n2))).reverse := by
    have := congrArg Prod.fst ed'
    simpa only [pyTailSlice_natCast (n1 + n2) (by omega : 0 < n1 + n2)]
      using this
  constructor
  · have hpdlen : pd.length = n1 + n2 := by
      rw [hpd, List.length_reverse, List.length_drop]
      omega
    rw [List.take_of_length_le (le_of_eq hpdlen), hp1, hp2, hpd,
      ← List.reverse_append]
    congr 1
    have hkk : M.length - (n1 + n2) = k - n2 := by omega
    rw [hkk]
    conv_rhs => rw [← List.take_append_drop k M]
    rw [List.drop_append_of_le_length (by omega : k - n2 ≤ (M.take k).length)]
  · have hp1len : (p1.length : Int) = (n1 : Int) := by
      rw [hp1, List.length_reverse, List.length_drop]
      exact_mod_cast congrArg (Nat.cast : Nat → Int) (by omega : M.length - k = n1)
    rw [hp1len, getNextRequest]
    rw [if_neg (by omega : ¬((n1 : Int) + (n2 : Int) ≤ (n1 : Int)))]
    simp

/-- C2 witness: the amended composition theorem applied to the four-line
file `"a\nb\nc\nd\n"` with `n1 = 2`, `n2 = 1`, page size 50. -/
theorem c2_pagination_composition_single_chunk_witness :
    [[100, 10], [99, 10]] ++ [[98, 10]] =
      ([[100, 10], [99, 10], [98, 10]] : List (List Nat)).take 3 ∧
    getNextRequest ⟨(2 : Int) + (1 : Int), 0, ((50 : Nat) : Int)⟩
      ((([[100, 10], [99, 10]] : List (List Nat)).length : Nat) : Int) 4 =
      some ⟨((1 : Nat) : Int), 4, ((50 : Nat) : Int)⟩ :=
  c2_pagination_composition_single_chunk
    [97, 10, 98, 10, 99, 10, 100, 10] 16 2 1 50 3 3 3
    [[100, 10], [99, 10]] [[98, 10]] [[100, 10], [99, 10], [98, 10]]
    4 6 6 [0] [0] [0]
    (by decide) (by decide) (by decide) (by decide) (by decide) (by decide)
    (by decide) (by decide) (by decide) (by decide)

/-- C3: as stated, the claim fails: when `targetCount` exceeds the line
count the scan does return all lines with `nextOffsetFromEnd = fileSize`,
but `get_next_request` then returns a *non-null* continuation (with the
line budget reduced), because `linesRetrieved <` the original `maxLines`.
Concretely, the one-line file `"a\n"` with `targetCount = 2`. -/
theorem c3_counterexample :
    readFromEnd [97, 10] DEFAULT_CHUNK_SIZE 2 0 none 5 =
      .ok ([[97, 10]], 2, [0]) ∧
    getNextRequest ⟨2, 0, 250⟩ 1 2 = some ⟨1, 2, 250⟩ := by
  exact ⟨by decide, by decide⟩

/-- C3 (amended): for an ASCII, newline-terminated file fitting in one
chunk and `targetCount >` total line count, the scan returns all lines
(in file order) and `nextOffsetFromEnd = fileSize`; the pagination
planner then returns a *continuation* request with the budget reduced by
the retrieved count and the offset set to `fileSize` — it returns none
exactly when `linesRetrieved ≥` the original `maxLines`. -/
theorem c3_oversized_count_returns_all (f : List Nat) (mcs n ps t : Nat)
    (orig2 : LogRequest) (r2 off2 : Int)
    (hga : ∀ b ∈ f, b < 128) (h10 : f.getLast? = some 10)
    (hlen : f.length ≤ mcs) (hcount : (pySplitLines f).length < n)
    (hsat : orig2.num_lines ≤ r2) :
    readFromEnd f mcs (n : Int) 0 none (t + 1) =
      .ok (pySplitLines f, (f.length : Int), [0]) ∧
    getNextRequest ⟨(n : Int), 0, (ps : Int)⟩
      ((pySplitLines f).length : Int) (f.length : Int) =
      some ⟨(n : Int) - ((pySplitLines f).length : Int), (f.length : Int),
        (ps : Int)⟩ ∧
    getNextRequest orig2 r2 off2 = none := by
  have hg0 : f = f.take ((f.length : Int) - 0).toNat := by simp
  have heff0 : ((f.length : Int) - 0).toNat ≤ mcs := by simpa using hlen
  have hcond : ¬(((pySplitLines f).length : Int) > (n : Int)) := by
    exact_mod_cast (by omega : ¬((pySplitLines f).length > n))
  have h := singleChunk_exhaust f f mcs (n : Int) 0 t (by simp) hg0 heff0
    hga h10 hcond
  refine ⟨by simpa using h, ?_, ?_⟩
  · have hc : ¬((n : Int) ≤ ((pySplitLines f).length : Int)) := by
      exact_mod_cast (by omega : ¬(n ≤ (pySplitLines f).length))
    rw [getNextRequest, if_neg hc]
  · rw [getNextRequest, if_pos hsat]

/-- C3 witness: the amended theorem at the one-line file `"a\n"` with
`targetCount = 3`, plus a satisfied request `⟨5, …⟩` with 7 lines
retrieved. -/
theorem c3_oversized_count_returns_all_witness :
    readFromEnd [97, 10] 8 ((3 : Nat) : Int) 0 none 4 =
      .ok (pySplitLines [97, 10], 2, [0]) ∧
    getNextRequest ⟨((3 : Nat) : Int), 0, ((250 : Nat) : Int)⟩
      ((pySplitLines [97, 10]).length : Int) 2 =
      some ⟨((3 : Nat) : Int) - ((pySplitLines [97, 10]).length : Int), 2,
        ((250 : Nat) : Int)⟩ ∧
    getNextRequest ⟨5, 0, 250⟩ 7 9 = none := by
  have h := c3_oversized_count_returns_all [97, 10] 8 3 250 3 ⟨5, 0, 250⟩
    7 9 (by decide) (by decide) (by decide) (by decide) (by decide)
  simpa using h

/-- C5: as stated, the claim fails on the file-exhausted return path:
`read_from_end` there returns `lines, file_size` without reversing, so
the first returned line is the *oldest*, not the newest.  Concretely, for
`"x\ny\nz\n"` with `targetCount = 3` the first returned line is
`"x\n"`, not the newest line `"z\n"`. -/
theorem c5_counterexample :
    readFromEnd [120, 10, 121, 10, 122, 10] DEFAULT_CHUNK_SIZE 3 0 none 9 =
      .ok ([[120, 10], [121, 10], [122, 10]], 6, [0]) ∧
    ([[120, 10], [121, 10], [122, 10]] : List (List Nat)).head? ≠
      some [122, 10] := by
  exact ⟨by decide, by decide⟩

/-- C5 (amended): for an ASCII, newline-terminated file fitting in one
chunk, the returned lines are newest-first (the reverse of the tail slice
of the accumulated lines) only on the enough-lines return path; on the
file-exhausted path the scan returns the accumulated lines in *file
order* (oldest first) together with the file size. -/
theorem c5_result_ordering_two_paths (f : List Nat) (mcs t : Nat) (n : Int)
    (hga : ∀ b ∈ f, b < 128) (h10 : f.getLast? = some 10)
    (hlen : f.length ≤ mcs) :
    (((pySplitLines f).length : Int) > n →
      readFromEnd f mcs n 0 none (t + 1) =
        .ok ((pyTailSlice n (pySplitLines f)).reverse,
          ((((pyTailSlice n (pySplitLines f)).reverse.map List.length).sum :
            Nat) : Int), [0])) ∧
    (((pySplitLines f).length : Int) ≤ n →
      readFromEnd f mcs n 0 none (t + 1) =
        .ok (pySplitLines f, (f.length : Int), [0])) := by
  have hg0 : f = f.take ((f.length : Int) - 0).toNat := by simp
  have heff0 : ((f.length : Int) - 0).toNat ≤ mcs := by simpa using hlen
  constructor
  · intro hcond
    have h := singleChunk_stop f f mcs n 0 t (by simp) hg0 heff0 hga h10
      hcond
    simpa using h
  · intro hcond
    have h := singleChunk_exhaust f f mcs n 0 t (by simp) hg0 heff0 hga h10
      (by omega)
    simpa using h

/-- C5 witness: the exhausted-path half of the amended theorem at
`"x\ny\nz\n"` with `targetCount = 5`. -/
theorem c5_result_ordering_two_paths_witness :
    readFromEnd [120, 10, 121, 10, 122, 10] 8 5 0 none 3 =
      .ok (pySplitLines [120, 10, 121, 10, 122, 10], 6, [0]) := by
  have h := (c5_result_ordering_two_paths [120, 10, 121, 10, 122, 10] 8 2 5
    (by decide) (by decide) (by decide)).2 (by decide)
  simpa using h

theorem readChunk_snd_le (file : List Nat) (position size : Nat) :
    (readChunk file position size).2 ≤ position + size := by
  rw [readChunk]
  cases hidx : lastNlIdx (pyDecodeIgnore ((file.drop position).take size)) with
  | none => simp
  | some k =>
    have h1 := lastNlIdx_lt_length _ k hidx
    have h2 := pyDecodeIgnore_length_le ((file.drop position).take size)
    have h3 : ((file.drop position).take size).length ≤ size := by
      rw [List.length_take]
      omega
    simp only []
    omega

theorem scanStep_snd_snd (file : List Nat) (chunkSize : Nat)
    (pred : Option (List Nat → Bool)) (position : Nat) (buffer : List Nat)
    (lines : List (List Nat)) :
    (scanStep file chunkSize pred position buffer lines).2.2 =
      (readChunk file position chunkSize).2 := rfl

theorem scanLoop_trace_head (file : List Nat) (maxChunk : Nat)
    (numLines offset : Int) (pred : Option (List Nat → Bool))
    (chunkSize eff : Nat) : ∀ (tmo position : Nat) (buffer : List Nat)
    (lines : List (List Nat)), ∃ rest,
    (scanLoop file maxChunk numLines offset pred chunkSize eff tmo position
      buffer lines).2.2 = position :: rest := by
  intro tmo position buffer lines
  cases tmo with
  | zero => exact ⟨[], rfl⟩
  | succ t =>
    simp only [scanLoop]
    split_ifs
    · exact ⟨[], rfl⟩
    · exact ⟨[], rfl⟩
    · exact ⟨_, rfl⟩

theorem scanLoop_trace_chain (file : List Nat) (maxChunk : Nat)
    (numLines offset : Int) (pred : Option (List Nat → Bool))
    (chunkSize eff : Nat) (hcs : chunkSize ≤ maxChunk) :
    ∀ (tmo position : Nat) (buffer : List Nat) (lines : List (List Nat)),
    List.Chain' (fun a b => b ≤ a)
      ((scanLoop file maxChunk numLines offset pred chunkSize eff tmo
        position buffer lines).2.2) := by
  intro tmo
  induction tmo with
  | zero =>
    intro position buffer lines
    exact List.chain'_singleton position
  | succ t ih =>
    intro position buffer lines
    simp only [scanLoop]
    split_ifs
    · exact List.chain'_singleton position
    · exact List.chain'_singleton position
    · have hnext := readChunk_snd_le file position chunkSize
      have hle : (scanStep file chunkSize pred position buffer lines).2.2 -
          maxChunk ≤ position := by
        rw [scanStep_snd_snd]
        omega
      obtain ⟨rest, hrest⟩ := scanLoop_trace_head file maxChunk numLines
        offset pred chunkSize eff t
        ((scanStep file chunkSize pred position buffer lines).2.2 - maxChunk)
        (scanStep file chunkSize pred position buffer lines).2.1
        (scanStep file chunkSize pred position buffer lines).1
      rw [List.chain'_cons', hrest]
      constructor
      · intro y hy
        simp only [List.head?_cons, Option.mem_def, Option.some.injEq] at hy
        omega
      · rw [← hrest]
        exact ih _ _ _

/-- C4: as stated, the claim fails: the loop sets
`position = max(next_position - max_chunk_size, 0)` (`next_position`
coming from `read_chunk`), not `max(position - chunkSize, 0)`, and the
position need not strictly decrease.  Concretely, on the nine-byte file
`"aa\nbb\ncc\n"` with chunk size 3, the last chunk ends exactly at a
newline, `next_position = position + 3`, and the scan revisits position 6
three times (trace `[6, 6, 6]`), returning duplicated lines. -/
theorem c4_counterexample :
    readFromEnd [97, 97, 10, 98, 98, 10, 99, 99, 10] 3 5 0 none 9 =
      .ok ([[99, 99, 10], [99, 99, 10], [99, 99, 10], [99, 99, 10],
        [99, 99, 10]], 15, [6, 6, 6]) ∧
    ¬ List.Chain' (fun a b : Nat => b < a) [6, 6, 6] := by
  constructor
  · decide
  · intro h
    rw [List.chain'_cons] at h
    omega

/-- C4 (amended): each continuing iteration sets
`position = max(nextPosition - maxChunkSize, 0)`, which is *non-increasing*
(not strictly decreasing): the successive iteration start positions of any
successful scan form a non-increasing sequence, and the scan always
returns (the loop is bounded by the stop conditions and the read-time
budget). -/
theorem c4_positions_nonincreasing (file : List Nat) (maxChunk : Nat)
    (numLines offset : Int) (pred : Option (List Nat → Bool)) (tmo : Nat)
    (r : List (List Nat) × Int × List Nat)
    (h : readFromEnd file maxChunk numLines offset pred tmo = .ok r) :
    List.Chain' (fun a b => b ≤ a) r.2.2 := by
  rw [readFromEnd] at h
  by_cases hlt : (file.length : Int) - offset < 0
  · rw [if_pos hlt] at h
    exact absurd h (by simp)
  · rw [if_neg hlt] at h
    have hr := Except.ok.inj h
    rw [← hr]
    by_cases hp : 0 < ((file.length : Int) - offset).toNat - maxChunk
    · simp only [if_pos hp]
      exact scanLoop_trace_chain file maxChunk numLines offset pred
        maxChunk _ le_rfl tmo _ [] []
    · simp only [if_neg hp]
      have : ((file.length : Int) - offset).toNat ≤ maxChunk := by omega
      exact scanLoop_trace_chain file maxChunk numLines offset pred
        _ _ this tmo _ [] []

/-- C4 witness: the amended theorem on the stuck-position run of the
counterexample, whose trace `[6, 6, 6]` is indeed non-increasing. -/
theorem c4_positions_nonincreasing_witness :
    List.Chain' (fun a b => b ≤ a)
      (([[99, 99, 10], [99, 99, 10], [99, 99, 10], [99, 99, 10],
        [99, 99, 10]], (15 : Int), [6, 6, 6]) :
        List (List Nat) × Int × List Nat).2.2 :=
  c4_positions_nonincreasing [97, 97, 10, 98, 98, 10, 99, 99, 10] 3 5 0
    none 9 _ (by decide)

theorem scanLoop_next_shape (file : List Nat) (maxChunk : Nat)
    (numLines offset : Int) (pred : Option (List Nat → Bool))
    (chunkSize eff : Nat) : ∀ (tmo position : Nat) (buffer : List Nat)
    (lines : List (List Nat)),
    (∃ k : Nat, (scanLoop file maxChunk numLines offset pred chunkSize eff
      tmo position buffer lines).2.1 = offset + (k : Int)) ∨
    (scanLoop file maxChunk numLines offset pred chunkSize eff tmo position
      buffer lines).2.1 = (eff : Int) := by
  intro tmo
  induction tmo with
  | zero =>
    intro position buffer lines
    exact Or.inl ⟨_, rfl⟩
  | succ t ih =>
    intro position buffer lines
    simp only [scanLoop]
    split_ifs
    · exact Or.inl ⟨_, rfl⟩
    · exact Or.inr rfl
    · exact ih _ _ _

/-- C6: as stated, the claim fails: on the file-exhausted path the scan
returns `nextOffsetFromEnd = fileSize - startOffsetFromEnd`, which can be
*smaller* than `startOffsetFromEnd`.  Concretely, on the two-byte file
`"a\n"`: a first call (offset 0, 2 lines asked) exhausts the file and
returns next offset 2 with a continuation of budget 1; feeding offset 2
back in returns next offset 0 < 2. -/
theorem c6_counterexample :
    readFromEnd [97, 10] DEFAULT_CHUNK_SIZE 2 0 none 5 =
      .ok ([[97, 10]], 2, [0]) ∧
    getNextRequest ⟨2, 0, 250⟩ 1 2 = some ⟨1, 2, 250⟩ ∧
    readFromEnd [97, 10] DEFAULT_CHUNK_SIZE 1 2 none 5 =
      .ok ([], 0, [0]) ∧
    ¬ ((2 : Int) ≤ 0) := by
  exact ⟨by decide, by decide, by decide, by decide⟩

/-- C6 (amended): a call's `nextOffsetFromEnd` is either
`startOffsetFromEnd + totalBytesOfReturnedLines` (enough-lines or timeout
path) or the effective file size `fileSize - startOffsetFromEnd`
(exhausted path); hence it is at least `startOffsetFromEnd` whenever at
most half of the file has been consumed (`2·startOffsetFromEnd ≤
fileSize`), but can drop below it once the exhausted path fires beyond
the half-way point. -/
theorem c6_next_offset_lower_bound (file : List Nat) (maxChunk : Nat)
    (numLines offset : Int) (pred : Option (List Nat → Bool)) (tmo : Nat)
    (r : List (List Nat) × Int × List Nat)
    (h0 : 0 ≤ offset) (h2 : 2 * offset ≤ (file.length : Int))
    (h : readFromEnd file maxChunk numLines offset pred tmo = .ok r) :
    offset ≤ r.2.1 := by
  have hoffle : offset ≤ (file.length : Int) := by omega
  rw [readFromEnd, if_neg (by omega : ¬((file.length : Int) - offset < 0))]
    at h
  have hr := Except.ok.inj h
  have heffv : (((((file.length : Int) - offset).toNat) : Nat) : Int) =
      (file.length : Int) - offset := Int.toNat_of_nonneg (by omega)
  rcases scanLoop_next_shape file maxChunk numLines offset pred
    (if 0 < ((file.length : Int) - offset).toNat - maxChunk then maxChunk
      else ((file.length : Int) - offset).toNat)
    (((file.length : Int) - offset).toNat) tmo
    (((file.length : Int) - offset).toNat - maxChunk) [] [] with hke | hke
  · obtain ⟨k, hk⟩ := hke
    rw [← hr, hk]
    omega
  · rw [← hr, hke, heffv]
    omega

/-- C6 witness: the amended theorem on `"a\nb\n"` read at offset 1:
the next offset 3 is at least the start offset 1. -/
theorem c6_next_offset_lower_bound_witness :
    (1 : Int) ≤ (([[97, 10]], (3 : Int), [0]) :
      List (List Nat) × Int × List Nat).2.1 :=
  c6_next_offset_lower_bound [97, 10, 98, 10] DEFAULT_CHUNK_SIZE 1 1 none 5
    _ (by decide) (by decide) (by decide)

/-- C7: as stated, the claim fails: `read_from_end` performs
`f.seek(-offset, SEEK_END)` with no clamping, so an offset greater than
the file size raises `OSError` instead of returning an empty result.
Concretely, offset 3 on the two-byte file `"a\n"`. -/
theorem c7_counterexample :
    readFromEnd [97, 10] DEFAULT_CHUNK_SIZE 5 3 none 9 =
      .error .osError ∧
    (Except.error .osError :
      Except PyErr (List (List Nat) × Int × List Nat)) ≠
      .ok ([], 2, [0]) := by
  exact ⟨by decide, by decide⟩

/-- C7 (amended): for every `startOffsetFromEnd` greater than the file
size, the initial seek computes a negative position and the scan raises
`OSError`; no clamping to `fileSize` happens and no (empty) result is
returned. -/
theorem c7_offset_beyond_eof_raises (file : List Nat) (maxChunk : Nat)
    (numLines offset : Int) (pred : Option (List Nat → Bool)) (tmo : Nat)
    (h : (file.length : Int) < offset) :
    readFromEnd file maxChunk numLines offset pred tmo =
      .error .osError := by
  rw [readFromEnd, if_pos (by omega : (file.length : Int) - offset < 0)]

/-- C7 witness: the amended theorem at offset 7 on a two-byte file. -/
theorem c7_offset_beyond_eof_raises_witness :
    readFromEnd [97, 10] 4 1 7 none 2 = .error .osError :=
  c7_offset_beyond_eof_raises [97, 10] 4 1 7 none 2 (by decide)

theorem dropWhile_head_not_space (l : List Nat) (c : Nat)
    (h : (l.dropWhile isPySpace).head? = some c) : isPySpace c = false := by
  have hh := List.head?_dropWhile_not isPySpace l
  rw [h] at hh
  exact hh

theorem pyStrip_getLast_not_space (l : List Nat) (c : Nat)
    (h : (pyStrip l).getLast? = some c) : isPySpace c = false := by
  rw [pyStrip, List.getLast?_reverse] at h
  exact dropWhile_head_not_space _ c h

theorem pyStrip_head_not_space (l : List Nat) (c : Nat)
    (h : (pyStrip l).head? = some c) : isPySpace c = false := by
  rw [pyStrip, List.head?_reverse] at h
  have hwne : (l.dropWhile isPySpace).reverse.dropWhile isPySpace ≠ [] := by
    intro hx
    rw [hx] at h
    simp at h
  obtain ⟨t, ht⟩ :=
    @List.dropWhile_suffix Nat ((l.dropWhile isPySpace).reverse) isPySpace
  have hv : (l.dropWhile isPySpace).reverse.getLast? = some c := by
    rw [← ht, List.getLast?_append, h]
    rfl
  rw [List.getLast?_reverse] at hv
  exact dropWhile_head_not_space _ c hv

theorem dropWhile_eq_self_of_head (l : List Nat)
    (h : ∀ c, l.head? = some c → isPySpace c = false) :
    l.dropWhile isPySpace = l := by
  cases l with
  | nil => rfl
  | cons b rest =>
    rw [List.dropWhile_cons, if_neg]
    rw [h b rfl]
    simp

theorem pyStrip_idem (l : List Nat) : pyStrip (pyStrip l) = pyStrip l := by
  have h1 : (pyStrip l).dropWhile isPySpace = pyStrip l :=
    dropWhile_eq_self_of_head _ (pyStrip_head_not_space l)
  have h2 : (pyStrip l).reverse.dropWhile isPySpace = (pyStrip l).reverse := by
    apply dropWhile_eq_self_of_head
    intro c hc
    rw [List.head?_reverse] at hc
    exact pyStrip_getLast_not_space l c hc
  conv_lhs => rw [pyStrip, h1, h2, List.reverse_reverse]

/-- C8: as stated, the claim fails on two counts: the handler decodes
with `errors='ignore'` (invalid bytes are dropped, not replaced) and
applies `str.strip()`, which trims *leading* as well as trailing
whitespace.  Concretely, for the single-line file `"  x\n"` the handler
returns `"x"`, whereas replace-decoding followed by trailing-only
trimming gives `"  x"`. -/
theorem c8_counterexample :
    getLogFile [32, 32, 120, 10] ⟨some 1, 0, 250⟩ none 5 =
      .ok ([[120]], 4, none) ∧
    specLineTransform [32, 32, 120, 10] = [32, 32, 120] ∧
    ([120] : List Nat) ≠ specLineTransform [32, 32, 120, 10] := by
  exact ⟨by decide, by decide, by decide⟩

/-- C8 (amended): every line returned by the handler is the raw line
decoded with lossy (`errors='ignore'`, never-failing) UTF-8 and stripped
of whitespace on *both* ends; in particular every returned line is a
fixed point of stripping. -/
theorem c8_lines_fully_stripped (file : List Nat) (req : PyLogRequest)
    (pred : Option (List Nat → Bool)) (tmo : Nat)
    (r : List (List Nat) × Int × Option LogRequest)
    (h : getLogFile file req pred tmo = .ok r) :
    ∀ s ∈ r.1, pyStrip s = s := by
  rw [getLogFile] at h
  cases hnorm : normalizeNumLines req.num_lines with
  | none =>
    simp only [hnorm] at h
    exact absurd h (by simp)
  | some nl =>
    simp only [hnorm] at h
    cases hscan : readFromEnd file DEFAULT_CHUNK_SIZE
      (min nl (min MAX_LINE_SIZE req.page_size)) req.offset pred tmo with
    | error e =>
      simp only [hscan] at h
      exact absurd h (by simp)
    | ok v =>
      simp only [hscan] at h
      have hr := Except.ok.inj h
      intro s hs
      rw [← hr] at hs
      simp only [List.mem_map] at hs
      obtain ⟨x, _, hx⟩ := hs
      rw [← hx]
      exact pyStrip_idem (pyDecodeIgnore x)

/-- C8 witness: the amended theorem at the file `" x\n"`, whose returned
line `"x"` is strip-fixed. -/
theorem c8_lines_fully_stripped_witness : pyStrip [120] = [120] :=
  c8_lines_fully_stripped [32, 120, 10] ⟨some 1, 0, 250⟩ none 3
    ([[120]], 3, none) (by decide) [120] (by decide)

/-- C9: as stated, the claim fails: an invalid (`null`/`0`) line count is
normalised to `None`, and `min(None, MAX_LINE_SIZE, page_size)` then
raises `TypeError` — the handler errors out instead of serving lines with
the count treated as unbounded. -/
theorem c9_counterexample :
    getLogFile [97, 10] ⟨some 0, 0, 250⟩ none 5 = .error .typeError ∧
    ¬ ∃ res, getLogFile [97, 10] ⟨some 0, 0, 250⟩ none 5 =
      Except.ok res := by
  have h : getLogFile [97, 10] ⟨some 0, 0, 250⟩ none 5 =
      .error .typeError := by decide
  refine ⟨h, ?_⟩
  rintro ⟨res, hres⟩
  rw [h] at hres
  exact Except.noConfusion hres

/-- C9 (amended): a missing (`None`) or zero `num_lines` is normalised to
`None` by `int(num_lines) if num_lines else None`, and the subsequent
`min(num_lines, MAX_LINE_SIZE, page_size)` raises `TypeError`: the
request fails with an unhandled server error — it is neither served with
an unbounded line count nor rejected with a proper validation error. -/
theorem c9_invalid_count_type_error (file : List Nat) (off ps : Int)
    (pred : Option (List Nat → Bool)) (tmo : Nat) :
    getLogFile file ⟨none, off, ps⟩ pred tmo = .error .typeError ∧
    getLogFile file ⟨some 0, off, ps⟩ pred tmo = .error .typeError := by
  constructor
  · rfl
  · rfl

theorem pyTailSlice_subset (n : Int) (xs : List (List Nat)) :
    pyTailSlice n xs ⊆ xs := by
  rw [pyTailSlice]
  split_ifs
  · exact List.drop_subset _ _
  · exact List.drop_subset _ _

theorem singleChunk_step_mid (f : List Nat) (kk : Nat)
    (hga : ∀ b ∈ f, b < 128) (hk : lastNlIdx f = some kk) :
    scanStep f f.length none 0 [] [] =
      (pySplitLines (f.take (kk + 1)), f.take (kk + 1), kk + 1) := by
  have hdec : pyDecodeIgnore f = f := pyDecodeIgnore_ascii f hga
  simp only [scanStep, readChunk, List.drop_zero, List.take_length, hdec,
    hk, List.append_nil, Nat.zero_add]

/-- C10: as stated, the claim fails in the multi-chunk case: when a chunk
contains no newline it is carried whole — including bytes after the
file's last newline — and those bytes can be returned.  Concretely, for
the file `"aaaa\nbbbbbbbb"` (no trailing newline, last newline at byte 4)
scanned with chunk size 6 and `targetCount = 1`, the scan returns the
line `"bbbbbb"`, made entirely of bytes after the last newline (and not
one of the file's complete lines). -/
theorem c10_counterexample :
    readFromEnd [97, 97, 97, 97, 10, 98, 98, 98, 98, 98, 98, 98, 98] 6 1 0
      none 9 = .ok ([[98, 98, 98, 98, 98, 98]], 6, [7, 1]) ∧
    lastNlIdx [97, 97, 97, 97, 10, 98, 98, 98, 98, 98, 98, 98, 98] =
      some 4 ∧
    [98, 98, 98, 98, 98, 98] ∉ pySplitLines
      (([97, 97, 97, 97, 10, 98, 98, 98, 98, 98, 98, 98, 98] :
        List Nat).take 5) := by
  exact ⟨by decide, by decide, by decide⟩

/-- C10 (amended): `read_chunk` truncates a chunk at its last newline
whenever the (decoded) chunk contains one; consequently, for an ASCII
file that contains a newline and fits in a single chunk, every line
returned by a scan at offset 0 is one of the complete lines of the file
truncated after its last newline — the unterminated final line is never
returned.  (In the multi-chunk case a newline-free chunk is carried whole
and bytes past the last newline can be returned, as the counterexample
shows.) -/
theorem c10_single_chunk_truncates_at_last_newline (f : List Nat)
    (mcs : Nat) (n : Int) (t kk : Nat)
    (r : List (List Nat) × Int × List Nat)
    (hga : ∀ b ∈ f, b < 128) (hk : lastNlIdx f = some kk)
    (hlen : f.length ≤ mcs)
    (h : readFromEnd f mcs n 0 none (t + 1) = .ok r) :
    ∀ l ∈ r.1, l ∈ pySplitLines (f.take (kk + 1)) := by
  have hno : ¬((f.length : Int) - 0 < 0) := by omega
  have hpos : f.length - mcs = 0 := Nat.sub_eq_zero_of_le hlen
  rw [readFromEnd, if_neg hno] at h
  simp only [Int.sub_zero, Int.toNat_natCast, hpos, Nat.lt_irrefl,
    if_false, scanLoop, singleChunk_step_mid f kk hga hk] at h
  split_ifs at h with h1
  · have hr := Except.ok.inj h
    intro l hl
    rw [← hr] at hl
    have hl2 : l ∈ pyTailSlice n (pySplitLines (f.take (kk + 1))) :=
      List.mem_reverse.mp hl
    exact pyTailSlice_subset n _ hl2
  · have hr := Except.ok.inj h
    intro l hl
    rw [← hr] at hl
    exact hl

/-- C10 witness: the amended theorem on the file `"a\nb"` (unterminated
final byte `b`): the returned line `"a\n"` is a complete line of the
truncated file. -/
theorem c10_single_chunk_truncates_at_last_newline_witness :
    [97, 10] ∈ pySplitLines (([97, 10, 98] : List Nat).take (1 + 1)) :=
  c10_single_chunk_truncates_at_last_newline [97, 10, 98] 8 1 3 1
    ([[97, 10]], 3, [0]) (by decide) (by decide) (by decide) (by decide)
    [97, 10] (by decide)
